import Mathlib

/-!
Verification of the M3U merge engine of scripts/m3u_merger.py.

The development shallowly embeds the Python source: the line parser
(parse_single_m3u), the anchor/cursor sequence merger inside main, and the
output serialization loop. Python dictionaries are modelled as functions
into Option, Python sets of strings as Finset String, and Python list
insertion (which clamps an index beyond the length to an append) as
take/append/drop. All definitions are computable so that concrete runs can
be evaluated inside proofs.
-/

namespace M3uMerger

/-- Python str.strip on a list of characters: drop whitespace from both ends. -/
def trimChars (cs : List Char) : List Char :=
  ((cs.dropWhile Char.isWhitespace).reverse.dropWhile Char.isWhitespace).reverse

/-- Helper for splitting a character list at newline characters. -/
def splitLinesAux : List Char → List Char → List (List Char)
  | [], acc => [acc.reverse]
  | c :: rest, acc =>
      if c = '\n' then acc.reverse :: splitLinesAux rest []
      else splitLinesAux rest (c :: acc)

/-- Python split by the newline character. -/
def splitLines (cs : List Char) : List (List Char) :=
  splitLinesAux cs []

/-- Behaviour of re.search with pattern comma-dot-plus-dollar: the leftmost
comma that has at least one character after it matches, and the capture is the
whole remainder of the line after that comma. Returns none when no comma has a
nonempty remainder. -/
def afterFirstComma : List Char → Option (List Char)
  | [] => none
  | c :: rest =>
      if c = ',' then (if rest = [] then none else some rest)
      else afterFirstComma rest

/-- Prefix test on strings via the underlying character lists, mirroring
Python str.startswith. -/
def strStartsWith (s p : String) : Bool :=
  p.toList.isPrefixOf s.toList

/-- Name extraction of the EXTINF branch: the regex capture, stripped.  Python
stores the empty string when the capture strips to nothing, and the empty
string behaves exactly like the absent name in every later test, so both are
modelled as none. -/
def extract_channel_name (line : String) : Option String :=
  match afterFirstComma line.toList with
  | none => none
  | some cs =>
      let n := String.mk (trimChars cs)
      if n = "" then none else some n

/-- One merged channel: the value type of the channels_map dictionary. -/
structure ChannelRec where
  info : String
  urls : Finset String
deriving DecidableEq

/-- Dictionary update: Python d[k] = v. -/
def updMap (m : String → Option ChannelRec) (k : String) (v : ChannelRec) :
    String → Option ChannelRec :=
  fun x => if x = k then some v else m x

/-- Parser state threaded through the line loop of parse_single_m3u. -/
structure PState where
  channels_map : String → Option ChannelRec
  order_list : List String
  header : String
  current_channel_name : Option String

/-- Initial parser state. -/
def initPState : PState :=
  { channels_map := fun _ => none, order_list := [], header := "",
    current_channel_name := none }

/-- One iteration of the line loop of parse_single_m3u. -/
def parseLine (st : PState) (line : String) : PState :=
  if strStartsWith line "#EXTM3U" then
    { st with header := if st.header = "" then line else st.header }
  else if strStartsWith line "#EXTINF:" then
    match extract_channel_name line with
    | none => { st with current_channel_name := none }
    | some name =>
        match st.channels_map name with
        | none =>
            { st with
              channels_map := updMap st.channels_map name ⟨line, ∅⟩,
              order_list := st.order_list ++ [name],
              current_channel_name := some name }
        | some r =>
            { st with
              channels_map := updMap st.channels_map name ⟨line, r.urls⟩,
              current_channel_name := some name }
  else if strStartsWith line "http://" || strStartsWith line "https://" then
    match st.current_channel_name with
    | some name =>
        match st.channels_map name with
        | some r =>
            { st with
              channels_map := updMap st.channels_map name ⟨r.info, insert line r.urls⟩ }
        | none => st
    | none => st
  else
    { st with current_channel_name := none }

/-- The function parse_single_m3u: strip the content, split into lines, strip
each line, drop blank lines, then run the line loop.  Returns the order list,
the channel map and the header. -/
def parse_single_m3u (content : String) :
    List String × (String → Option ChannelRec) × String :=
  if content = "" then ([], fun _ => none, "")
  else
    let lines :=
      ((splitLines (trimChars content.toList)).map
        (fun l => String.mk (trimChars l))).filter (fun l => l ≠ "")
    let st := lines.foldl parseLine initPState
    (st.order_list, st.channels_map, st.header)

/-- The accumulator of main: final_header, final_order_list,
final_channels_map. -/
structure Playlist where
  header : String
  order : List String
  records : String → Option ChannelRec

/-- Python list.insert for a nonnegative index: an index at or beyond the
length appends at the end. -/
def pyInsert (l : List String) (i : Nat) (a : String) : List String :=
  l.take i ++ a :: l.drop i

/-- The record used where the Python code would raise a KeyError looking up a
channel of the incoming order that is absent from the incoming map; the branch
is unreachable for parser outputs. -/
def defaultRec : ChannelRec := ⟨"", ∅⟩

/-- The anchor scan of main: the last index of the accumulator order whose
channel occurs in the incoming map, or minus one. -/
def computeAnchor (order : List String) (cmap : String → Option ChannelRec) : Int :=
  order.enum.foldl (fun a p => if (cmap p.2).isSome then (p.1 : Int) else a) (-1)

/-- One iteration of the insertion loop of main, folding a single incoming
channel name into the accumulator together with the running cursor. -/
def mergeChannel (cmap : String → Option ChannelRec) (st : Playlist × Int)
    (name : String) : Playlist × Int :=
  let acc := st.1
  let cursor := st.2
  match acc.records name with
  | some r =>
      let incRec := (cmap name).getD defaultRec
      ({ acc with
         records := updMap acc.records name ⟨incRec.info, r.urls ∪ incRec.urls⟩ },
       (acc.order.indexOf name : Int))
  | none =>
      let incRec := (cmap name).getD defaultRec
      ({ acc with
         records := updMap acc.records name incRec,
         order := pyInsert acc.order (cursor + 1).toNat name },
       cursor + 1)

/-- Folding one later source into the accumulator: compute the anchor, then
run the insertion loop over the incoming order.  The incoming header is
ignored, matching the underscore in main. -/
def mergeInto (acc : Playlist) (inc : List String × (String → Option ChannelRec)) :
    Playlist :=
  (inc.1.foldl (mergeChannel inc.2) (acc, computeAnchor acc.order inc.2)).1

/-- The whole merge run of main over the list of source contents: the first
source seeds the accumulator verbatim, every later source is folded in by
mergeInto. -/
def mergeAll (contents : List String) : Playlist :=
  match contents with
  | [] => { header := "", order := [], records := fun _ => none }
  | c :: cs =>
      let p := parse_single_m3u c
      cs.foldl
        (fun acc c2 =>
          let q := parse_single_m3u c2
          mergeInto acc (q.1, q.2.1))
        { header := p.2.2, order := p.1, records := p.2.1 }

/-- URL lines of one record, rendered in sorted order as in the Python call
to sorted. -/
def sortedUrls (u : Finset String) : List String :=
  u.sort (· ≤ ·)

/-- Lines emitted for one name of the final order: the membership guard of the
output loop skips a name absent from the map. -/
def recordLines (acc : Playlist) (name : String) : List String :=
  match acc.records name with
  | some d => d.info :: sortedUrls d.urls
  | none => []

/-- The serialization loop of main: the header line when nonempty, then the
lines of every name of the final order. -/
def serializeLines (acc : Playlist) : List String :=
  (if acc.header = "" then [] else [acc.header]) ++
  acc.order.flatMap (recordLines acc)

/-- Lines emitted for one name with the membership guard removed. -/
def recordLinesUnguarded (acc : Playlist) (name : String) : List String :=
  ((acc.records name).getD defaultRec).info ::
    sortedUrls ((acc.records name).getD defaultRec).urls

/-- Serialization with the membership guard removed: every name of the order
is emitted unconditionally.  Used to state that the guard never skips. -/
def serializeUnguarded (acc : Playlist) : List String :=
  (if acc.header = "" then [] else [acc.header]) ++
  acc.order.flatMap (recordLinesUnguarded acc)

/-- The final text written to the output file. -/
def merged_output (contents : List String) : String :=
  String.intercalate "\n" (serializeLines (mergeAll contents))

/-! Definitions written from the words of the specification, used to compare
the merger of the source against the anchor/cursor description. -/

/-- Modelled from the spec: the anchor is the position in the accumulator
order of the last accumulator channel that appears anywhere in the order of
the incoming source, or minus one. -/
def specAnchor (accOrder incOrder : List String) : Int :=
  accOrder.enum.foldl (fun a p => if p.2 ∈ incOrder then (p.1 : Int) else a) (-1)

/-- Modelled from the spec: one cursor step.  An already known channel moves
the cursor to its current index; a new channel is inserted right after the
cursor and the cursor moves to the inserted index. -/
def specStep (st : List String × Int) (name : String) : List String × Int :=
  if name ∈ st.1 then (st.1, (st.1.indexOf name : Int))
  else (pyInsert st.1 (st.2 + 1).toNat name, st.2 + 1)

/-- Modelled from the spec: the merged order produced by the anchor/cursor
description, iterating the incoming channels in their own order. -/
def specMergeOrder (accOrder incOrder : List String) : List String :=
  (incOrder.foldl specStep (accOrder, specAnchor accOrder incOrder)).1

/-- Modelled from the spec: the display name as the substring after the last
comma of the line, trimmed of surrounding whitespace, or none when the line
has no comma. -/
def lastCommaName (line : String) : Option String :=
  if ',' ∈ line.toList then
    some (String.mk (trimChars (line.toList.reverse.takeWhile (fun c => c ≠ ',')).reverse))
  else none

/-! Predicates and observers used by the statements. -/

/-- URL set held by a map for a name, empty when the name is absent. -/
def urlsIn (m : String → Option ChannelRec) (x : String) : Finset String :=
  match m x with
  | some r => r.urls
  | none => ∅

/-- URL set of a name in the accumulator. -/
def urlsOf (acc : Playlist) (x : String) : Finset String :=
  urlsIn acc.records x

/-- The keys of the records map are exactly the names of the order. -/
def keysMatch (acc : Playlist) : Prop :=
  ∀ x, (acc.records x).isSome ↔ x ∈ acc.order

/-- Well formed parser state: order without repeats, and the keys of the map
are exactly the names of the order. -/
def POk (st : PState) : Prop :=
  st.order_list.Nodup ∧ ∀ x, (st.channels_map x).isSome ↔ x ∈ st.order_list

/-! Basic lemmas about the building blocks. -/

theorem updMap_apply (m : String → Option ChannelRec) (k : String) (v : ChannelRec)
    (x : String) : updMap m k v x = if x = k then some v else m x := rfl

theorem updMap_self (m : String → Option ChannelRec) (k : String) (v : ChannelRec) :
    updMap m k v k = some v := by simp [updMap]

theorem updMap_ne (m : String → Option ChannelRec) (k : String) (v : ChannelRec)
    (x : String) (h : x ≠ k) : updMap m k v x = m x := by simp [updMap, h]

theorem pyInsert_perm (l : List String) (i : Nat) (a : String) :
    (pyInsert l i a).Perm (a :: l) := by
  have h : (l.take i ++ a :: l.drop i).Perm (a :: (l.take i ++ l.drop i)) :=
    List.perm_middle
  simpa [pyInsert, List.take_append_drop] using h

theorem mem_pyInsert (x a : String) (l : List String) (i : Nat) :
    x ∈ pyInsert l i a ↔ x = a ∨ x ∈ l := by
  rw [(pyInsert_perm l i a).mem_iff]
  simp

theorem nodup_pyInsert (l : List String) (i : Nat) (a : String)
    (ha : a ∉ l) (hl : l.Nodup) : (pyInsert l i a).Nodup := by
  refine ((pyInsert_perm l i a).symm.nodup ?_)
  exact List.nodup_cons.mpr ⟨ha, hl⟩

theorem filter_pyInsert (p : String → Bool) (l : List String) (i : Nat) (a : String)
    (hp : p a = false) : (pyInsert l i a).filter p = l.filter p := by
  rw [pyInsert, List.filter_append, List.filter_cons, hp]
  simp only [Bool.false_eq_true, if_false]
  rw [← List.filter_append, List.take_append_drop]

theorem flatMap_congr_mem {α β : Type} (l : List α) (f g : α → List β)
    (h : ∀ x ∈ l, f x = g x) : l.flatMap f = l.flatMap g := by
  induction l with
  | nil => rfl
  | cons a t ih =>
      simp only [List.flatMap_cons]
      rw [h a (by simp), ih (fun x hx => h x (by simp [hx]))]

/-! Equation lemmas for the branches of the line loop. -/

theorem parseLine_header (st : PState) (line : String)
    (h1 : strStartsWith line "#EXTM3U" = true) :
    parseLine st line =
      { st with header := if st.header = "" then line else st.header } := by
  simp [parseLine, h1]

theorem parseLine_extinf_noname (st : PState) (line : String)
    (h1 : strStartsWith line "#EXTM3U" = false)
    (h2 : strStartsWith line "#EXTINF:" = true)
    (h3 : extract_channel_name line = none) :
    parseLine st line = { st with current_channel_name := none } := by
  simp [parseLine, h1, h2, h3]

theorem parseLine_extinf_new (st : PState) (line name : String)
    (h1 : strStartsWith line "#EXTM3U" = false)
    (h2 : strStartsWith line "#EXTINF:" = true)
    (h3 : extract_channel_name line = some name)
    (h4 : st.channels_map name = none) :
    parseLine st line =
      { st with
        channels_map := updMap st.channels_map name ⟨line, ∅⟩,
        order_list := st.order_list ++ [name],
        current_channel_name := some name } := by
  simp [parseLine, h1, h2, h3, h4]

theorem parseLine_extinf_known (st : PState) (line name : String) (r : ChannelRec)
    (h1 : strStartsWith line "#EXTM3U" = false)
    (h2 : strStartsWith line "#EXTINF:" = true)
    (h3 : extract_channel_name line = some name)
    (h4 : st.channels_map name = some r) :
    parseLine st line =
      { st with
        channels_map := updMap st.channels_map name ⟨line, r.urls⟩,
        current_channel_name := some name } := by
  simp [parseLine, h1, h2, h3, h4]

theorem parseLine_url_add (st : PState) (line name : String) (r : ChannelRec)
    (h1 : strStartsWith line "#EXTM3U" = false)
    (h2 : strStartsWith line "#EXTINF:" = false)
    (h3 : (strStartsWith line "http://" || strStartsWith line "https://") = true)
    (hcur : st.current_channel_name = some name)
    (hrec : st.channels_map name = some r) :
    parseLine st line =
      { st with
        channels_map := updMap st.channels_map name ⟨r.info, insert line r.urls⟩ } := by
  simp [parseLine, h1, h2, h3, hcur, hrec]

theorem parseLine_url_norec (st : PState) (line name : String)
    (h1 : strStartsWith line "#EXTM3U" = false)
    (h2 : strStartsWith line "#EXTINF:" = false)
    (h3 : (strStartsWith line "http://" || strStartsWith line "https://") = true)
    (hcur : st.current_channel_name = some name)
    (hrec : st.channels_map name = none) :
    parseLine st line = st := by
  simp [parseLine, h1, h2, h3, hcur, hrec]

theorem parseLine_url_nocontext (st : PState) (line : String)
    (h1 : strStartsWith line "#EXTM3U" = false)
    (h2 : strStartsWith line "#EXTINF:" = false)
    (h3 : (strStartsWith line "http://" || strStartsWith line "https://") = true)
    (hcur : st.current_channel_name = none) :
    parseLine st line = st := by
  simp [parseLine, h1, h2, h3, hcur]

theorem parseLine_other (st : PState) (line : String)
    (h1 : strStartsWith line "#EXTM3U" = false)
    (h2 : strStartsWith line "#EXTINF:" = false)
    (h3 : (strStartsWith line "http://" || strStartsWith line "https://") = false) :
    parseLine st line = { st with current_channel_name := none } := by
  simp [parseLine, h1, h2, h3]

/-! Parser invariant: the line loop keeps the state well formed. -/

theorem parseLine_pok (st : PState) (line : String) (h : POk st) :
    POk (parseLine st line) := by
  obtain ⟨hnd, hiff⟩ := h
  by_cases h1 : strStartsWith line "#EXTM3U"
  · rw [parseLine_header st line h1]
    exact ⟨hnd, hiff⟩
  · replace h1 : strStartsWith line "#EXTM3U" = false := by simpa using h1
    by_cases h2 : strStartsWith line "#EXTINF:"
    · cases hname : extract_channel_name line with
      | none =>
          rw [parseLine_extinf_noname st line h1 h2 hname]
          exact ⟨hnd, hiff⟩
      | some name =>
          cases hrec : st.channels_map name with
          | none =>
              rw [parseLine_extinf_new st line name h1 h2 hname hrec]
              have hnotin : name ∉ st.order_list := by
                intro hmem
                have hs := (hiff name).mpr hmem
                rw [hrec] at hs
                simp at hs
              refine ⟨?_, ?_⟩
              · simpa [List.nodup_append] using And.intro hnd hnotin
              · intro x
                dsimp only
                by_cases hx : x = name
                · subst hx
                  simp [updMap_self]
                · rw [updMap_ne _ _ _ _ hx]
                  simp only [List.mem_append, List.mem_singleton]
                  rw [hiff x]
                  exact ⟨fun hm => Or.inl hm,
                    fun hm => hm.elim id (fun he => absurd he hx)⟩
          | some r =>
              rw [parseLine_extinf_known st line name r h1 h2 hname hrec]
              refine ⟨hnd, ?_⟩
              intro x
              dsimp only
              by_cases hx : x = name
              · subst hx
                have hm : x ∈ st.order_list := by
                  rw [← hiff x, hrec]
                  simp
                simp [updMap_self, hm]
              · rw [updMap_ne _ _ _ _ hx]
                exact hiff x
    · replace h2 : strStartsWith line "#EXTINF:" = false := by simpa using h2
      by_cases h3 : (strStartsWith line "http://" || strStartsWith line "https://") = true
      · cases hcur : st.current_channel_name with
        | none =>
            rw [parseLine_url_nocontext st line h1 h2 h3 hcur]
            exact ⟨hnd, hiff⟩
        | some name =>
            cases hrec : st.channels_map name with
            | none =>
                rw [parseLine_url_norec st line name h1 h2 h3 hcur hrec]
                exact ⟨hnd, hiff⟩
            | some r =>
                rw [parseLine_url_add st line name r h1 h2 h3 hcur hrec]
                refine ⟨hnd, ?_⟩
                intro x
                dsimp only
                by_cases hx : x = name
                · subst hx
                  have hm : x ∈ st.order_list := by
                    rw [← hiff x, hrec]
                    simp
                  simp [updMap_self, hm]
                · rw [updMap_ne _ _ _ _ hx]
                  exact hiff x
      · replace h3 : (strStartsWith line "http://" || strStartsWith line "https://") = false := by
          simpa using h3
        rw [parseLine_other st line h1 h2 h3]
        exact ⟨hnd, hiff⟩

theorem foldl_parseLine_pok (lines : List String) (st : PState) (h : POk st) :
    POk (lines.foldl parseLine st) := by
  induction lines generalizing st with
  | nil => exact h
  | cons l t ih => exact ih (parseLine st l) (parseLine_pok st l h)

theorem parse_pok (content : String) :
    (parse_single_m3u content).1.Nodup ∧
    ∀ x, ((parse_single_m3u content).2.1 x).isSome ↔ x ∈ (parse_single_m3u content).1 := by
  unfold parse_single_m3u
  by_cases hc : content = ""
  · simp [hc]
  · simp only [hc, if_false]
    have h := foldl_parseLine_pok
      (((splitLines (trimChars content.toList)).map
        (fun l => String.mk (trimChars l))).filter (fun l => l ≠ ""))
      initPState ⟨List.nodup_nil, by simp [initPState]⟩
    exact ⟨h.1, h.2⟩

/-! Equation lemmas for the branches of the insertion loop of main. -/

theorem mergeChannel_known (cmap : String → Option ChannelRec) (st : Playlist × Int)
    (name : String) (r : ChannelRec) (h : st.1.records name = some r) :
    mergeChannel cmap st name =
      ({ st.1 with
         records := updMap st.1.records name
           ⟨((cmap name).getD defaultRec).info,
            r.urls ∪ ((cmap name).getD defaultRec).urls⟩ },
       (st.1.order.indexOf name : Int)) := by
  simp [mergeChannel, h]

theorem mergeChannel_new (cmap : String → Option ChannelRec) (st : Playlist × Int)
    (name : String) (h : st.1.records name = none) :
    mergeChannel cmap st name =
      ({ st.1 with
         records := updMap st.1.records name ((cmap name).getD defaultRec),
         order := pyInsert st.1.order (st.2 + 1).toNat name },
       st.2 + 1) := by
  simp [mergeChannel, h]

/-! Preservation of well formedness by one update of the accumulator. -/

theorem keysMatch_update_known (acc : Playlist) (n : String) (v : ChannelRec)
    (hmem : n ∈ acc.order) (hk : keysMatch acc) :
    keysMatch { acc with records := updMap acc.records n v } := by
  intro x
  dsimp only
  by_cases hx : x = n
  · subst hx
    simp [updMap_self, hmem]
  · rw [updMap_ne _ _ _ _ hx]
    exact hk x

theorem keysMatch_insert_new (acc : Playlist) (n : String) (v : ChannelRec) (i : Nat)
    (hk : keysMatch acc) :
    keysMatch { acc with records := updMap acc.records n v,
                         order := pyInsert acc.order i n } := by
  intro x
  dsimp only
  by_cases hx : x = n
  · subst hx
    simp [updMap_self, mem_pyInsert]
  · rw [updMap_ne _ _ _ _ hx, mem_pyInsert]
    simp only [hx, false_or]
    exact hk x

/-! Facts about the insertion loop as a whole, by induction over the incoming
order. -/

theorem mergeFold_header (cmap : String → Option ChannelRec) (o : List String) :
    ∀ (acc : Playlist) (cur : Int),
      ((o.foldl (mergeChannel cmap) (acc, cur)).1).header = acc.header := by
  induction o with
  | nil => intro acc cur; rfl
  | cons n t ih =>
      intro acc cur
      rw [List.foldl_cons]
      cases hrec : acc.records n with
      | some r =>
          rw [mergeChannel_known cmap (acc, cur) n r hrec]
          exact ih _ _
      | none =>
          rw [mergeChannel_new cmap (acc, cur) n hrec]
          exact ih _ _

theorem mergeFold_inv (cmap : String → Option ChannelRec) (o : List String) :
    ∀ (acc : Playlist) (cur : Int), keysMatch acc → acc.order.Nodup →
      keysMatch ((o.foldl (mergeChannel cmap) (acc, cur)).1) ∧
      ((o.foldl (mergeChannel cmap) (acc, cur)).1).order.Nodup := by
  induction o with
  | nil => intro acc cur hk hn; exact ⟨hk, hn⟩
  | cons n t ih =>
      intro acc cur hk hn
      rw [List.foldl_cons]
      cases hrec : acc.records n with
      | some r =>
          rw [mergeChannel_known cmap (acc, cur) n r hrec]
          have hmem : n ∈ acc.order := (hk n).mp (by rw [hrec]; simp)
          exact ih _ _ (keysMatch_update_known acc n _ hmem hk) hn
      | none =>
          rw [mergeChannel_new cmap (acc, cur) n hrec]
          have hnotin : n ∉ acc.order := by
            intro hm
            have := (hk n).mpr hm
            rw [hrec] at this
            simp at this
          exact ih _ _ (keysMatch_insert_new acc n _ _ hk)
            (nodup_pyInsert _ _ _ hnotin hn)

theorem mergeFold_filter (cmap : String → Option ChannelRec) (o : List String)
    (p : String → Bool) :
    ∀ (acc : Playlist) (cur : Int),
      (∀ x, p x = true → (acc.records x).isSome) →
      ((o.foldl (mergeChannel cmap) (acc, cur)).1).order.filter p =
        acc.order.filter p ∧
      (∀ x, p x = true →
        (((o.foldl (mergeChannel cmap) (acc, cur)).1).records x).isSome) := by
  induction o with
  | nil => intro acc cur h; exact ⟨rfl, h⟩
  | cons n t ih =>
      intro acc cur h
      rw [List.foldl_cons]
      cases hrec : acc.records n with
      | some r =>
          rw [mergeChannel_known cmap (acc, cur) n r hrec]
          refine ih _ _ ?_
          intro x hx
          dsimp only
          by_cases hxn : x = n
          · subst hxn
            simp [updMap_self]
          · rw [updMap_ne _ _ _ _ hxn]
            exact h x hx
      | none =>
          rw [mergeChannel_new cmap (acc, cur) n hrec]
          have hpn : p n = false := by
            cases hpn : p n
            · rfl
            · have := h n hpn
              rw [hrec] at this
              simp at this
          have hstep := ih ({ acc with
              records := updMap acc.records n ((cmap n).getD defaultRec),
              order := pyInsert acc.order (cur + 1).toNat n }) (cur + 1) ?_
          · refine ⟨?_, hstep.2⟩
            rw [hstep.1]
            exact filter_pyInsert p acc.order _ n hpn
          · intro x hx
            dsimp only
            by_cases hxn : x = n
            · subst hxn
              simp [updMap_self]
            · rw [updMap_ne _ _ _ _ hxn]
              exact h x hx

theorem urlsIn_getD (cmap : String → Option ChannelRec) (n : String) :
    ((cmap n).getD defaultRec).urls = urlsIn cmap n := by
  cases h : cmap n <;> simp [urlsIn, defaultRec, h]

theorem mergeFold_urls (cmap : String → Option ChannelRec) (o : List String) :
    ∀ (acc : Playlist) (cur : Int) (x : String),
      urlsIn ((o.foldl (mergeChannel cmap) (acc, cur)).1).records x =
        if x ∈ o then urlsIn acc.records x ∪ urlsIn cmap x
        else urlsIn acc.records x := by
  induction o with
  | nil => intro acc cur x; simp
  | cons n t ih =>
      intro acc cur x
      rw [List.foldl_cons]
      rcases hstep : mergeChannel cmap (acc, cur) n with ⟨acc1, cur1⟩
      have key : ∀ y, urlsIn acc1.records y =
          if y = n then urlsIn acc.records n ∪ urlsIn cmap n
          else urlsIn acc.records y := by
        intro y
        cases hrec : acc.records n with
        | some r =>
            rw [mergeChannel_known cmap (acc, cur) n r hrec, Prod.mk.injEq] at hstep
            obtain ⟨hs1, hs2⟩ := hstep
            subst hs1
            dsimp only
            by_cases hy : y = n
            · subst hy
              simp [urlsIn, updMap_self, urlsIn_getD, hrec]
            · rw [urlsIn, updMap_ne _ _ _ _ hy]
              simp [urlsIn, hy]
        | none =>
            rw [mergeChannel_new cmap (acc, cur) n hrec, Prod.mk.injEq] at hstep
            obtain ⟨hs1, hs2⟩ := hstep
            subst hs1
            dsimp only
            by_cases hy : y = n
            · subst hy
              simp [urlsIn, updMap_self, urlsIn_getD, hrec]
            · rw [urlsIn, updMap_ne _ _ _ _ hy]
              simp [urlsIn, hy]
      rw [ih acc1 cur1 x, key x]
      by_cases h1 : x = n
      · subst h1
        by_cases h2 : x ∈ t
        · simp [h2, List.mem_cons, Finset.union_assoc, Finset.union_self]
        · simp [h2, List.mem_cons]
      · by_cases h2 : x ∈ t
        · simp [h1, h2, List.mem_cons]
        · simp [h1, h2, List.mem_cons]

theorem mergeFold_isSome (cmap : String → Option ChannelRec) (o : List String) :
    ∀ (acc : Playlist) (cur : Int) (x : String),
      (((o.foldl (mergeChannel cmap) (acc, cur)).1).records x).isSome =
        ((acc.records x).isSome || decide (x ∈ o)) := by
  induction o with
  | nil => intro acc cur x; simp
  | cons n t ih =>
      intro acc cur x
      rw [List.foldl_cons]
      rcases hstep : mergeChannel cmap (acc, cur) n with ⟨acc1, cur1⟩
      have key : ∀ y, (acc1.records y).isSome =
          ((acc.records y).isSome || decide (y = n)) := by
        intro y
        cases hrec : acc.records n with
        | some r =>
            rw [mergeChannel_known cmap (acc, cur) n r hrec, Prod.mk.injEq] at hstep
            obtain ⟨hs1, hs2⟩ := hstep
            subst hs1
            dsimp only
            by_cases hy : y = n
            · subst hy
              simp [updMap_self, hrec]
            · rw [updMap_ne _ _ _ _ hy]
              simp [hy]
        | none =>
            rw [mergeChannel_new cmap (acc, cur) n hrec, Prod.mk.injEq] at hstep
            obtain ⟨hs1, hs2⟩ := hstep
            subst hs1
            dsimp only
            by_cases hy : y = n
            · subst hy
              simp [updMap_self, hrec]
            · rw [updMap_ne _ _ _ _ hy]
              simp [hy]
      rw [ih acc1 cur1 x, key x]
      by_cases h1 : x = n <;> by_cases h2 : x ∈ t <;>
        simp [h1, h2, List.mem_cons, Bool.or_assoc]

theorem computeAnchor_eq (m : String → Option ChannelRec) (o accOrder : List String)
    (hinc : ∀ x, (m x).isSome ↔ x ∈ o) :
    computeAnchor accOrder m = specAnchor accOrder o := by
  unfold computeAnchor specAnchor
  suffices h : ∀ (l : List (Nat × String)) (a : Int),
      l.foldl (fun a p => if (m p.2).isSome then (p.1 : Int) else a) a =
      l.foldl (fun a p => if p.2 ∈ o then (p.1 : Int) else a) a by
    exact h _ _
  intro l
  induction l with
  | nil => intro a; rfl
  | cons p t ih =>
      intro a
      rw [List.foldl_cons, List.foldl_cons]
      by_cases hc : p.2 ∈ o
      · rw [if_pos ((hinc p.2).mpr hc), if_pos hc]
        exact ih _
      · have hb : (m p.2).isSome = false := by
          cases hb2 : (m p.2).isSome
          · rfl
          · exact absurd ((hinc p.2).mp hb2) hc
        rw [if_neg (by simp [hb]), if_neg hc]
        exact ih _

theorem mergeFold_sync (m : String → Option ChannelRec) (o : List String) :
    ∀ (acc : Playlist) (cur : Int), keysMatch acc →
      o.foldl specStep (acc.order, cur) =
        (((o.foldl (mergeChannel m) (acc, cur)).1).order,
         (o.foldl (mergeChannel m) (acc, cur)).2) := by
  induction o with
  | nil => intro acc cur hk; rfl
  | cons n t ih =>
      intro acc cur hk
      rw [List.foldl_cons, List.foldl_cons]
      cases hrec : acc.records n with
      | some r =>
          have hmem : n ∈ acc.order := (hk n).mp (by rw [hrec]; simp)
          rw [mergeChannel_known m (acc, cur) n r hrec]
          have hspec : specStep (acc.order, cur) n =
              (acc.order, (acc.order.indexOf n : Int)) := by
            simp [specStep, hmem]
          rw [hspec]
          exact ih _ _ (keysMatch_update_known acc n _ hmem hk)
      | none =>
          have hnot : n ∉ acc.order := by
            intro hm
            have := (hk n).mpr hm
            rw [hrec] at this
            simp at this
          rw [mergeChannel_new m (acc, cur) n hrec]
          have hspec : specStep (acc.order, cur) n =
              (pyInsert acc.order (cur + 1).toNat n, cur + 1) := by
            simp [specStep, hnot]
          rw [hspec]
          exact ih _ _ (keysMatch_insert_new acc n _ _ hk)

/-! Lifted facts about mergeInto and mergeAll. -/

theorem mergeInto_header (acc : Playlist) (inc : List String × (String → Option ChannelRec)) :
    (mergeInto acc inc).header = acc.header :=
  mergeFold_header inc.2 inc.1 acc (computeAnchor acc.order inc.2)

theorem mergeInto_inv (acc : Playlist) (inc : List String × (String → Option ChannelRec))
    (hk : keysMatch acc) (hn : acc.order.Nodup) :
    keysMatch (mergeInto acc inc) ∧ (mergeInto acc inc).order.Nodup :=
  mergeFold_inv inc.2 inc.1 acc (computeAnchor acc.order inc.2) hk hn

theorem foldMerge_inv (cs : List String) :
    ∀ acc : Playlist, keysMatch acc → acc.order.Nodup →
      keysMatch (cs.foldl
        (fun acc c2 =>
          let q := parse_single_m3u c2
          mergeInto acc (q.1, q.2.1)) acc) ∧
      (cs.foldl
        (fun acc c2 =>
          let q := parse_single_m3u c2
          mergeInto acc (q.1, q.2.1)) acc).order.Nodup := by
  induction cs with
  | nil => intro acc hk hn; exact ⟨hk, hn⟩
  | cons c2 t ih =>
      intro acc hk hn
      rw [List.foldl_cons]
      have h := mergeInto_inv acc ((parse_single_m3u c2).1, (parse_single_m3u c2).2.1) hk hn
      exact ih _ h.1 h.2

theorem foldMerge_header (cs : List String) :
    ∀ acc : Playlist,
      (cs.foldl
        (fun acc c2 =>
          let q := parse_single_m3u c2
          mergeInto acc (q.1, q.2.1)) acc).header = acc.header := by
  induction cs with
  | nil => intro acc; rfl
  | cons c2 t ih =>
      intro acc
      rw [List.foldl_cons]
      exact (ih _).trans (mergeInto_header acc _)

theorem mergeAll_inv (c : String) (cs : List String) :
    keysMatch (mergeAll (c :: cs)) ∧ (mergeAll (c :: cs)).order.Nodup := by
  have hp := parse_pok c
  exact foldMerge_inv cs
    { header := (parse_single_m3u c).2.2, order := (parse_single_m3u c).1,
      records := (parse_single_m3u c).2.1 } hp.2 hp.1

theorem mergeAll_header (c : String) (cs : List String) :
    (mergeAll (c :: cs)).header = (parse_single_m3u c).2.2 :=
  foldMerge_header cs
    { header := (parse_single_m3u c).2.2, order := (parse_single_m3u c).1,
      records := (parse_single_m3u c).2.1 }

/-! Claim theorems. -/

/-- C4: merging any incoming source into the accumulator preserves the
relative order of the identities already present: filtering the merged order
down to the old identities returns exactly the old order, and no identity
present before the fold is removed. -/
theorem merge_preserves_existing_order (acc : Playlist)
    (o : List String) (m : String → Option ChannelRec)
    (h : ∀ x ∈ acc.order, (acc.records x).isSome) :
    (mergeInto acc (o, m)).order.filter (fun x => decide (x ∈ acc.order)) =
      acc.order ∧
    ∀ x ∈ acc.order, x ∈ (mergeInto acc (o, m)).order := by
  have hp : ∀ x, (fun x => decide (x ∈ acc.order)) x = true →
      (acc.records x).isSome := by
    intro x hx
    exact h x (by simpa using hx)
  have hf := mergeFold_filter m o (fun x => decide (x ∈ acc.order)) acc
    (computeAnchor acc.order m) hp
  have hfil : (mergeInto acc (o, m)).order.filter
      (fun x => decide (x ∈ acc.order)) = acc.order := by
    have h1 : (mergeInto acc (o, m)).order.filter
        (fun x => decide (x ∈ acc.order)) =
        acc.order.filter (fun x => decide (x ∈ acc.order)) := hf.1
    rw [h1]
    exact List.filter_eq_self.mpr (fun x hx => by simpa using hx)
  refine ⟨hfil, ?_⟩
  intro x hx
  rw [← hfil] at hx
  exact (List.mem_filter.mp hx).1

/-- Witness for C4 at a concrete accumulator and incoming source. -/
theorem merge_preserves_existing_order_witness :
    (mergeInto
        { header := "", order := ["B"],
          records := fun x => if x = "B" then some ⟨"#EXTINF:-1,B", ∅⟩ else none }
        (["A", "B"],
         fun x =>
           if x = "A" then some ⟨"#EXTINF:-1,A", ∅⟩
           else if x = "B" then some ⟨"#EXTINF:-1,B", ∅⟩ else none)).order.filter
      (fun x => decide (x ∈ ["B"])) = ["B"] ∧
    ∀ x ∈ (["B"] : List String), x ∈ (mergeInto
        { header := "", order := ["B"],
          records := fun x => if x = "B" then some ⟨"#EXTINF:-1,B", ∅⟩ else none }
        (["A", "B"],
         fun x =>
           if x = "A" then some ⟨"#EXTINF:-1,A", ∅⟩
           else if x = "B" then some ⟨"#EXTINF:-1,B", ∅⟩ else none)).order :=
  merge_preserves_existing_order
    { header := "", order := ["B"],
      records := fun x => if x = "B" then some ⟨"#EXTINF:-1,B", ∅⟩ else none }
    ["A", "B"]
    (fun x =>
      if x = "A" then some ⟨"#EXTINF:-1,A", ∅⟩
      else if x = "B" then some ⟨"#EXTINF:-1,B", ∅⟩ else none)
    (by decide)

/-- C5: the header of the merged output is the header parsed from the first
source, and the serialized output carries a header line exactly when that
first header is nonempty, whatever the later sources contain. -/
theorem header_from_first_source (c : String) (cs : List String) :
    (mergeAll (c :: cs)).header = (parse_single_m3u c).2.2 ∧
    serializeLines (mergeAll (c :: cs)) =
      (if (parse_single_m3u c).2.2 = "" then []
       else [(parse_single_m3u c).2.2]) ++
      (mergeAll (c :: cs)).order.flatMap (recordLines (mergeAll (c :: cs))) := by
  have hh := mergeAll_header c cs
  refine ⟨hh, ?_⟩
  rw [serializeLines, hh]

/-- C6: no identity ever occurs twice: the order produced by the parser for
any source has no repeats, and the final merged order has no repeats for any
sequence of sources. -/
theorem no_duplicate_identities :
    (∀ content : String, (parse_single_m3u content).1.Nodup) ∧
    ∀ (c : String) (cs : List String), (mergeAll (c :: cs)).order.Nodup :=
  ⟨fun content => (parse_pok content).1, fun c cs => (mergeAll_inv c cs).2⟩

/-- C10: the names of the order are exactly the keys of the records map,
after parsing any source and after any sequence of merge folds, and therefore
the membership guard of the serialization loop never skips a name. -/
theorem order_matches_records_keys :
    (∀ (content : String) (x : String),
      ((parse_single_m3u content).2.1 x).isSome ↔ x ∈ (parse_single_m3u content).1) ∧
    (∀ (c : String) (cs : List String), keysMatch (mergeAll (c :: cs))) ∧
    (∀ (c : String) (cs : List String),
      serializeLines (mergeAll (c :: cs)) = serializeUnguarded (mergeAll (c :: cs))) := by
  refine ⟨fun content => (parse_pok content).2, fun c cs => (mergeAll_inv c cs).1, ?_⟩
  intro c cs
  have hk := (mergeAll_inv c cs).1
  rw [serializeLines, serializeUnguarded]
  congr 1
  apply flatMap_congr_mem
  intro x hx
  have hs := (hk x).mpr hx
  obtain ⟨d, hd⟩ := Option.isSome_iff_exists.mp hs
  simp [recordLines, recordLinesUnguarded, hd]

/-- C1: for a fold into a nonempty accumulator, the merger of the source
realizes exactly the anchor/cursor description: the anchor is the index of
the highest-index accumulator channel occurring in the incoming source, a
known channel moves the cursor to its current index, and a new channel is
inserted at cursor plus one, added to the records, with the cursor moved to
the inserted index. -/
theorem merger_follows_anchor_cursor_spec (acc : Playlist) (o : List String)
    (m : String → Option ChannelRec) (hne : acc.order ≠ [])
    (hacc : keysMatch acc) (hinc : ∀ x, (m x).isSome ↔ x ∈ o) :
    (mergeInto acc (o, m)).order = specMergeOrder acc.order o := by
  have h1 := computeAnchor_eq m o acc.order hinc
  have h2 := mergeFold_sync m o acc (computeAnchor acc.order m) hacc
  unfold mergeInto specMergeOrder
  rw [← h1, h2]

/-- Witness for C1 at a concrete accumulator and incoming source. -/
theorem merger_follows_anchor_cursor_spec_witness :
    (mergeInto
        { header := "", order := ["B"],
          records := fun x => if x = "B" then some ⟨"#EXTINF:-1,B", ∅⟩ else none }
        (["A", "B"],
         fun x =>
           if x = "A" then some ⟨"#EXTINF:-1,A", ∅⟩
           else if x = "B" then some ⟨"#EXTINF:-1,B", ∅⟩ else none)).order =
      specMergeOrder ["B"] ["A", "B"] :=
  merger_follows_anchor_cursor_spec
    { header := "", order := ["B"],
      records := fun x => if x = "B" then some ⟨"#EXTINF:-1,B", ∅⟩ else none }
    ["A", "B"]
    (fun x =>
      if x = "A" then some ⟨"#EXTINF:-1,A", ∅⟩
      else if x = "B" then some ⟨"#EXTINF:-1,B", ∅⟩ else none)
    (by decide)
    (by
      intro x
      by_cases hx : x = "B" <;> simp [hx])
    (by
      intro x
      by_cases ha : x = "A"
      · simp [ha]
      · by_cases hb : x = "B" <;> simp [ha, hb])

/-- C2 counterexample: with accumulator order [A, B] and incoming order
[X, A, Y, Z, B], the merger of the source yields [A, Y, Z, B, X], not the
claimed [X, A, Y, Z, B]: the anchor starts at the last known channel B, so
the leading new channel X is inserted after B. -/
theorem contiguous_block_insertion_counterexample :
    (parse_single_m3u "#EXTINF:-1,A\nhttp://a\n#EXTINF:-1,B\nhttp://b").1 =
      ["A", "B"] ∧
    (parse_single_m3u
      "#EXTINF:-1,X\n#EXTINF:-1,A\n#EXTINF:-1,Y\n#EXTINF:-1,Z\n#EXTINF:-1,B").1 =
      ["X", "A", "Y", "Z", "B"] ∧
    (mergeAll
      ["#EXTINF:-1,A\nhttp://a\n#EXTINF:-1,B\nhttp://b",
       "#EXTINF:-1,X\n#EXTINF:-1,A\n#EXTINF:-1,Y\n#EXTINF:-1,Z\n#EXTINF:-1,B"]).order =
      ["A", "Y", "Z", "B", "X"] ∧
    (["A", "Y", "Z", "B", "X"] : List String) ≠ ["X", "A", "Y", "Z", "B"] := by
  refine ⟨by decide, by decide, by decide, by decide⟩

/-- C2 amended: merging incoming order [X, A, Y, Z, B] into accumulator order
[A, B] produces [A, Y, Z, B, X]. -/
theorem contiguous_block_insertion_amended :
    (mergeAll
      ["#EXTINF:-1,A\nhttp://a\n#EXTINF:-1,B\nhttp://b",
       "#EXTINF:-1,X\n#EXTINF:-1,A\n#EXTINF:-1,Y\n#EXTINF:-1,Z\n#EXTINF:-1,B"]).order =
      ["A", "Y", "Z", "B", "X"] := by decide

/-- C3 counterexample: with a first source holding only B and a second source
with order [A, B], the merged order is [B, A], not the claimed [A, B]: the
anchor is B, so the new channel A is inserted after B, not in front of it. -/
theorem front_insertion_counterexample :
    (parse_single_m3u "#EXTINF:-1,B\nhttp://b").1 = ["B"] ∧
    (parse_single_m3u "#EXTINF:-1,A\n#EXTINF:-1,B").1 = ["A", "B"] ∧
    (mergeAll ["#EXTINF:-1,B\nhttp://b", "#EXTINF:-1,A\n#EXTINF:-1,B"]).order =
      ["B", "A"] ∧
    (["B", "A"] : List String) ≠ ["A", "B"] := by
  refine ⟨by decide, by decide, by decide, by decide⟩

/-- C3 amended: with a first source holding only B and a second source with
order [A, B], the merged order is [B, A]. -/
theorem front_insertion_amended :
    (mergeAll ["#EXTINF:-1,B\nhttp://b", "#EXTINF:-1,A\n#EXTINF:-1,B"]).order =
      ["B", "A"] := by decide

/-- C7: for two sources merged in either order, every identity ends with the
same URL set, and an identity is present in one merged result exactly when it
is present in the other. -/
theorem url_union_commutative (a b x : String) :
    urlsOf (mergeAll [a, b]) x = urlsOf (mergeAll [b, a]) x ∧
    (x ∈ (mergeAll [a, b]).order ↔ x ∈ (mergeAll [b, a]).order) := by
  have hab : urlsOf (mergeAll [a, b]) x =
      if x ∈ (parse_single_m3u b).1
      then urlsIn (parse_single_m3u a).2.1 x ∪ urlsIn (parse_single_m3u b).2.1 x
      else urlsIn (parse_single_m3u a).2.1 x :=
    mergeFold_urls (parse_single_m3u b).2.1 (parse_single_m3u b).1
      { header := (parse_single_m3u a).2.2, order := (parse_single_m3u a).1,
        records := (parse_single_m3u a).2.1 }
      (computeAnchor (parse_single_m3u a).1 (parse_single_m3u b).2.1) x
  have hba : urlsOf (mergeAll [b, a]) x =
      if x ∈ (parse_single_m3u a).1
      then urlsIn (parse_single_m3u b).2.1 x ∪ urlsIn (parse_single_m3u a).2.1 x
      else urlsIn (parse_single_m3u b).2.1 x :=
    mergeFold_urls (parse_single_m3u a).2.1 (parse_single_m3u a).1
      { header := (parse_single_m3u b).2.2, order := (parse_single_m3u b).1,
        records := (parse_single_m3u b).2.1 }
      (computeAnchor (parse_single_m3u b).1 (parse_single_m3u a).2.1) x
  have hnone : ∀ s y : String, y ∉ (parse_single_m3u s).1 →
      urlsIn (parse_single_m3u s).2.1 y = ∅ := by
    intro s y hy
    cases hv : (parse_single_m3u s).2.1 y with
    | none => simp [urlsIn, hv]
    | some r => exact absurd (((parse_pok s).2 y).mp (by rw [hv]; simp)) hy
  constructor
  · rw [hab, hba]
    by_cases hxa : x ∈ (parse_single_m3u a).1 <;>
      by_cases hxb : x ∈ (parse_single_m3u b).1
    · simp [hxa, hxb, Finset.union_comm]
    · simp [hxa, hxb, hnone b x hxb]
    · simp [hxa, hxb, hnone a x hxa]
    · simp [hxa, hxb, hnone a x hxa, hnone b x hxb]
  · have k1 := (mergeAll_inv a [b]).1 x
    have k2 := (mergeAll_inv b [a]).1 x
    have s1 : ((mergeAll [a, b]).records x).isSome =
        (((parse_single_m3u a).2.1 x).isSome ||
          decide (x ∈ (parse_single_m3u b).1)) :=
      mergeFold_isSome (parse_single_m3u b).2.1 (parse_single_m3u b).1
        { header := (parse_single_m3u a).2.2, order := (parse_single_m3u a).1,
          records := (parse_single_m3u a).2.1 }
        (computeAnchor (parse_single_m3u a).1 (parse_single_m3u b).2.1) x
    have s2 : ((mergeAll [b, a]).records x).isSome =
        (((parse_single_m3u b).2.1 x).isSome ||
          decide (x ∈ (parse_single_m3u a).1)) :=
      mergeFold_isSome (parse_single_m3u a).2.1 (parse_single_m3u a).1
        { header := (parse_single_m3u b).2.2, order := (parse_single_m3u b).1,
          records := (parse_single_m3u b).2.1 }
        (computeAnchor (parse_single_m3u b).1 (parse_single_m3u a).2.1) x
    rw [← k1, ← k2, s1, s2]
    simp only [Bool.or_eq_true, decide_eq_true_eq,
      (parse_pok a).2 x, (parse_pok b).2 x]
    exact or_comm

/-! Characterization of the comma scan of the name regex. -/

theorem afterFirstComma_append (pre post : List Char)
    (h : ',' ∉ pre) (hp : post ≠ []) :
    afterFirstComma (pre ++ ',' :: post) = some post := by
  induction pre with
  | nil => simp [afterFirstComma, hp]
  | cons c t ih =>
      have hc : ¬c = ',' := fun he => h (by simp [he])
      simp only [List.cons_append, afterFirstComma, hc, if_false]
      exact ih (fun hm => h (by simp [hm]))

theorem afterFirstComma_of_not_mem (cs : List Char) (h : ',' ∉ cs) :
    afterFirstComma cs = none := by
  induction cs with
  | nil => rfl
  | cons c t ih =>
      have hc : ¬c = ',' := fun he => h (by simp [he])
      simp only [afterFirstComma, hc, if_false]
      exact ih (fun hm => h (by simp [hm]))

/-- C8 counterexample: on the metadata line with body -1,a,b the parser
records the identity a,b, the text after the first comma, while the claimed
rule, substring after the last comma, yields b. -/
theorem name_after_last_comma_counterexample :
    lastCommaName "#EXTINF:-1,a,b" = some "b" ∧
    (parse_single_m3u "#EXTINF:-1,a,b").1 = ["a,b"] ∧
    (("a,b" : String) ≠ "b") := by
  refine ⟨by decide, by decide, by decide⟩

/-- C8 amended: the display name is the substring after the first comma of
the line (to the end of the line), trimmed of surrounding whitespace and
treated as absent when it trims to nothing; a line with no comma establishes
no channel context, and with no context URL lines are ignored until the next
metadata line. -/
theorem name_after_first_comma :
    (∀ pre post : List Char, ',' ∉ pre → post ≠ [] →
      extract_channel_name (String.mk (pre ++ ',' :: post)) =
        (if String.mk (trimChars post) = "" then none
         else some (String.mk (trimChars post)))) ∧
    (∀ line : String, ',' ∉ line.toList → extract_channel_name line = none) ∧
    (∀ (st : PState) (line : String),
      strStartsWith line "#EXTM3U" = false →
      strStartsWith line "#EXTINF:" = true →
      (parseLine st line).current_channel_name = extract_channel_name line) ∧
    (∀ (st : PState) (line : String),
      strStartsWith line "#EXTM3U" = false →
      strStartsWith line "#EXTINF:" = false →
      (strStartsWith line "http://" || strStartsWith line "https://") = true →
      st.current_channel_name = none → parseLine st line = st) := by
  refine ⟨?_, ?_, ?_, ?_⟩
  · intro pre post hpre hpost
    have ht : (String.mk (pre ++ ',' :: post)).toList = pre ++ ',' :: post := rfl
    rw [extract_channel_name, ht, afterFirstComma_append pre post hpre hpost]
  · intro line h
    rw [extract_channel_name, afterFirstComma_of_not_mem line.toList h]
  · intro st line h1 h2
    cases hname : extract_channel_name line with
    | none => rw [parseLine_extinf_noname st line h1 h2 hname]
    | some name =>
        cases hrec : st.channels_map name with
        | none => rw [parseLine_extinf_new st line name h1 h2 hname hrec]
        | some r => rw [parseLine_extinf_known st line name r h1 h2 hname hrec]
  · intro st line h1 h2 h3 hcur
    exact parseLine_url_nocontext st line h1 h2 h3 hcur

/-- Witness for C8 amended, applying every part at a concrete line. -/
theorem name_after_first_comma_witness :
    (extract_channel_name (String.mk (['a'] ++ ',' :: ['b'])) =
      (if String.mk (trimChars ['b']) = "" then none
       else some (String.mk (trimChars ['b'])))) ∧
    extract_channel_name "abc" = none ∧
    (parseLine initPState "#EXTINF:-1,A").current_channel_name =
      extract_channel_name "#EXTINF:-1,A" ∧
    parseLine initPState "http://u" = initPState :=
  ⟨name_after_first_comma.1 ['a'] ['b'] (by decide) (by decide),
   name_after_first_comma.2.1 "abc" (by decide),
   name_after_first_comma.2.2.1 initPState "#EXTINF:-1,A" (by decide) (by decide),
   name_after_first_comma.2.2.2 initPState "http://u" (by decide) (by decide)
     (by decide) rfl⟩

/-- C9: when a metadata line carries a name already present in the map, only
the info line of that record changes: the order gains no entry, the URL set
of the record is kept, and every other key of the map is untouched. -/
theorem metadata_overwrite_frame (st : PState) (line name : String) (r : ChannelRec)
    (h1 : strStartsWith line "#EXTM3U" = false)
    (h2 : strStartsWith line "#EXTINF:" = true)
    (h3 : extract_channel_name line = some name)
    (h4 : st.channels_map name = some r) :
    (parseLine st line).order_list = st.order_list ∧
    (parseLine st line).channels_map name = some ⟨line, r.urls⟩ ∧
    ∀ x, x ≠ name → (parseLine st line).channels_map x = st.channels_map x := by
  rw [parseLine_extinf_known st line name r h1 h2 h3 h4]
  refine ⟨rfl, ?_, ?_⟩
  · dsimp only
    rw [updMap_self]
  · intro x hx
    dsimp only
    exact updMap_ne _ _ _ _ hx

/-- Witness for C9 at a concrete state and line. -/
theorem metadata_overwrite_frame_witness :
    (parseLine
        { channels_map := fun x => if x = "A" then some ⟨"#OLD", ∅⟩ else none,
          order_list := ["A"], header := "", current_channel_name := none }
        "#EXTINF:-1,A").order_list = ["A"] ∧
    (parseLine
        { channels_map := fun x => if x = "A" then some ⟨"#OLD", ∅⟩ else none,
          order_list := ["A"], header := "", current_channel_name := none }
        "#EXTINF:-1,A").channels_map "A" = some ⟨"#EXTINF:-1,A", ∅⟩ ∧
    ∀ x, x ≠ "A" →
      (parseLine
          { channels_map := fun x => if x = "A" then some ⟨"#OLD", ∅⟩ else none,
            order_list := ["A"], header := "", current_channel_name := none }
          "#EXTINF:-1,A").channels_map x =
        (fun x => if x = "A" then some (⟨"#OLD", ∅⟩ : ChannelRec) else none) x :=
  metadata_overwrite_frame
    { channels_map := fun x => if x = "A" then some ⟨"#OLD", ∅⟩ else none,
      order_list := ["A"], header := "", current_channel_name := none }
    "#EXTINF:-1,A" "A" ⟨"#OLD", ∅⟩
    (by decide) (by decide) (by decide) (by decide)

end M3uMerger